import Mathlib

/-!
Verification of the core subsystems of the simple-program-launcher
repository against its specification: the trigger engine
(crates/bin/src/input.rs), the usage ledger (crates/core/src/usage.rs)
and the clipboard ledger (crates/ui/src/app.rs), shallowly embedded in
Lean.  Timestamps are modelled as naturals (milliseconds for the trigger
engine, which uses the monotonic Instant clock) or integers (seconds for
the usage ledger, whose chrono arithmetic the code reduces to whole
seconds via num_seconds).  Rust f64 scores are modelled as real numbers.
-/

namespace Launcher

/-! ### Trigger engine (input.rs) -/

/-- Configuration of the listener: InputListener.simultaneous_threshold and
InputListener.debounce_duration, both durations in milliseconds. -/
structure TriggerConfig where
  simultaneous_threshold : Nat
  debounce_duration : Nat
deriving DecidableEq

/-- MouseState from input.rs: the press instants of the two buttons and the
instant of the last emitted trigger. -/
structure MouseState where
  left_pressed : Option Nat
  right_pressed : Option Nat
  last_trigger : Option Nat
deriving DecidableEq

/-- TriggerEvent from input.rs.  The source stores an (f64, f64) position but
only ever constructs (0.0, 0.0) there, which we model as (0, 0) : Int × Int. -/
structure TriggerEvent where
  position : Int × Int
  timestamp : Nat
deriving DecidableEq

/-- Absolute difference of the two press instants, written exactly as the
source computes it: left.duration_since(right) when left > right, otherwise
right.duration_since(left). -/
def absDiff (l r : Nat) : Nat :=
  if l > r then l - r else r - l

/-- InputListener.check_trigger.  Instant.duration_since saturates at zero,
which truncated Nat subtraction models exactly.  Returns the emitted trigger
(if any) together with the updated state. -/
def check_trigger (cfg : TriggerConfig) (s : MouseState) (now : Nat) :
    Option TriggerEvent × MouseState :=
  match s.left_pressed, s.right_pressed with
  | some l, some r =>
    if absDiff l r > cfg.simultaneous_threshold then (none, s)
    else
      match s.last_trigger with
      | some last =>
        if now - last < cfg.debounce_duration then (none, s)
        else
          (some ⟨(0, 0), now⟩,
           { left_pressed := none, right_pressed := none, last_trigger := some now })
      | none =>
          (some ⟨(0, 0), now⟩,
           { left_pressed := none, right_pressed := none, last_trigger := some now })
  | _, _ => (none, s)

/-- The two mouse buttons the listener reacts to (BTN_LEFT and BTN_RIGHT). -/
inductive Button where
  | left
  | right
deriving DecidableEq

/-- The state update of InputListener.handle_button: a press stores the
current instant for that button, a release clears it. -/
def record_press (s : MouseState) (b : Button) (pressed : Bool) (now : Nat) :
    MouseState :=
  match b with
  | .left => { s with left_pressed := if pressed then some now else none }
  | .right => { s with right_pressed := if pressed then some now else none }

/-- InputListener.handle_button: record the event and, on a press only,
evaluate check_trigger. -/
def handle_button (cfg : TriggerConfig) (s : MouseState) (b : Button)
    (pressed : Bool) (now : Nat) : Option TriggerEvent × MouseState :=
  let s₁ := record_press s b pressed now
  if pressed then check_trigger cfg s₁ now else (none, s₁)

/-- Characterisation of check_trigger: a trigger comes out exactly when both
buttons are recorded pressed, their press instants differ by at most the
threshold, and the debounce window has passed (or no trigger happened yet). -/
lemma check_trigger_isSome (cfg : TriggerConfig) (s : MouseState) (now : Nat) :
    (check_trigger cfg s now).1.isSome = true ↔
      ∃ l r, s.left_pressed = some l ∧ s.right_pressed = some r ∧
        absDiff l r ≤ cfg.simultaneous_threshold ∧
        (s.last_trigger = none ∨
          ∃ last, s.last_trigger = some last ∧
            cfg.debounce_duration ≤ now - last) := by
  rcases s with ⟨lp, rp, lt⟩
  cases lp <;> cases rp <;> cases lt <;>
    simp only [check_trigger] <;> simp_all <;> (try split_ifs) <;> simp_all

/-- Helper: whenever check_trigger emits, the updated state has both press
records cleared and the last trigger stamped with the current instant. -/
lemma check_trigger_clears (cfg : TriggerConfig) (s : MouseState) (now : Nat)
    (t : TriggerEvent) (s' : MouseState)
    (h : check_trigger cfg s now = (some t, s')) :
    s'.left_pressed = none ∧ s'.right_pressed = none ∧
      s'.last_trigger = some now := by
  rcases s with ⟨lp, rp, lt⟩
  cases lp <;> cases rp <;> cases lt <;>
    simp only [check_trigger] at h <;> (try split_ifs at h) <;>
    simp_all <;> (obtain ⟨h₁, h₂⟩ := h; subst h₂; simp)

/-- C1: for every button-event stream state, a Trigger is emitted on a press
event if and only if, once the press is recorded, both left_pressed and
right_pressed are set, their press instants differ by at most
simultaneous_threshold (inclusive), and either no previous trigger exists or
the time since last_trigger is at least debounce_duration (elapsed equal to
the debounce fires, strictly less suppresses); a release event never emits. -/
theorem trigger_iff_chord_and_debounce (cfg : TriggerConfig) (s : MouseState)
    (b : Button) (now : Nat) :
    ((handle_button cfg s b true now).1.isSome = true ↔
      ∃ l r, (record_press s b true now).left_pressed = some l ∧
        (record_press s b true now).right_pressed = some r ∧
        absDiff l r ≤ cfg.simultaneous_threshold ∧
        (s.last_trigger = none ∨
          ∃ last, s.last_trigger = some last ∧
            cfg.debounce_duration ≤ now - last)) ∧
    (handle_button cfg s b false now).1 = none := by
  constructor
  · have h := check_trigger_isSome cfg (record_press s b true now) now
    have hlt : (record_press s b true now).last_trigger = s.last_trigger := by
      cases b <;> rfl
    rw [hlt] at h
    simpa [handle_button] using h
  · simp [handle_button]

/-- C5: whenever a trigger fires the same step clears both press states, and
from a state with both press records cleared a fresh press of a single button
alone emits no second trigger. -/
theorem trigger_clears_both_buttons (cfg : TriggerConfig) (s : MouseState)
    (b b' : Button) (now now' t : Nat) (trig : TriggerEvent) (s₂ : MouseState) :
    (handle_button cfg s b true now = (some trig, s₂) →
      s₂.left_pressed = none ∧ s₂.right_pressed = none) ∧
    (handle_button cfg ⟨none, none, some t⟩ b' true now').1 = none := by
  constructor
  · intro h
    have h' : check_trigger cfg (record_press s b true now) now = (some trig, s₂) := by
      simpa [handle_button] using h
    exact ⟨(check_trigger_clears _ _ _ _ _ h').1,
           (check_trigger_clears _ _ _ _ _ h').2.1⟩
  · cases b' <;> rfl

/-! ### Usage ledger scoring (usage.rs)

Launch timestamps are modelled as whole seconds (Int): the source reduces
every chrono duration to seconds with num_seconds before using it.  The f64
score is modelled as a real number. -/

/-- HALF_LIFE_DAYS from usage.rs. -/
def HALF_LIFE_DAYS : Int := 7

/-- Duration.days(HALF_LIFE_DAYS).num_seconds(), the half-life in seconds. -/
def halfLifeSeconds : Int := HALF_LIFE_DAYS * 86400

/-- One launch timestamp's summand inside UsageRecord.score: a negative age
(in whole seconds) contributes 1.0, otherwise exp2 of -age/half_life. -/
noncomputable def decayContribution (now t : Int) : ℝ :=
  if now - t < 0 then 1
  else (2 : ℝ) ^ (-(((now - t : Int) : ℝ)) / ((halfLifeSeconds : Int) : ℝ))

/-- UsageRecord.score: the fold over the launch list from usage.rs. -/
noncomputable def usageScore (launches : List Int) (now : Int) : ℝ :=
  launches.foldl (fun acc t => acc + decayContribution now t) 0

/-- Modelled from the spec sentence for C4: the sum over all launch
timestamps of 2^(-age/half_life), where a launch strictly in the future of
now contributes exactly 1.0. -/
noncomputable def usageScoreSpec (launches : List Int) (now : Int) : ℝ :=
  (launches.map (fun t =>
    if now < t then 1
    else (2 : ℝ) ^ (-(((now - t : Int) : ℝ)) / ((halfLifeSeconds : Int) : ℝ)))).sum

/-- UsageRecord.record_launch: push the current timestamp and keep only the
last 100 entries (drain removes the oldest ones at the front). -/
def record_launch (launches : List Int) (now : Int) : List Int :=
  let l := launches ++ [now]
  if l.length > 100 then l.drop (l.length - 100) else l

/-- Folding addition over a list is the sum of the mapped list. -/
lemma foldl_add_eq_sum (f : Int → ℝ) (l : List Int) (a : ℝ) :
    l.foldl (fun acc t => acc + f t) a = a + (l.map f).sum := by
  induction l generalizing a with
  | nil => simp
  | cons x xs ih => simp [ih, add_assoc]

/-- The score fold as a sum over the mapped launch list. -/
lemma usageScore_eq_sum (l : List Int) (now : Int) :
    usageScore l now = (l.map (decayContribution now)).sum := by
  simpa [usageScore] using foldl_add_eq_sum (decayContribution now) l 0

/-- No single launch contributes more than full weight. -/
lemma decayContribution_le_one (now t : Int) : decayContribution now t ≤ 1 := by
  unfold decayContribution
  split_ifs with h
  · exact le_refl 1
  · apply Real.rpow_le_one_of_one_le_of_nonpos (by norm_num)
    apply div_nonpos_iff.mpr
    refine Or.inr ⟨?_, ?_⟩
    · simp only [neg_nonpos]
      exact_mod_cast (by omega : (0 : Int) ≤ now - t)
    · norm_num [halfLifeSeconds, HALF_LIFE_DAYS]

/-- A launch made exactly at the evaluation time contributes exactly 1. -/
lemma decayContribution_self (now : Int) : decayContribution now now = 1 := by
  unfold decayContribution
  rw [if_neg (by omega)]
  simp

/-- For a launch in the past, strictly later evaluation strictly shrinks its
contribution. -/
lemma decayContribution_strict (t n₁ n₂ : Int) (ht : t ≤ n₁) (h : n₁ < n₂) :
    decayContribution n₂ t < decayContribution n₁ t := by
  unfold decayContribution
  rw [if_neg (by omega), if_neg (by omega)]
  rw [Real.rpow_lt_rpow_left_iff (by norm_num : (1 : ℝ) < 2)]
  have hH : (0 : ℝ) < ((halfLifeSeconds : Int) : ℝ) := by
    norm_num [halfLifeSeconds, HALF_LIFE_DAYS]
  rw [div_lt_div_iff_of_pos_right hH]
  have : ((n₁ - t : Int) : ℝ) < ((n₂ - t : Int) : ℝ) := by
    exact_mod_cast (by omega : n₁ - t < n₂ - t)
  linarith

/-- Summing strictly pointwise-smaller values over a nonempty list gives a
strictly smaller sum. -/
lemma map_sum_lt_of_forall_lt (f g : Int → ℝ) :
    ∀ l : List Int, l ≠ [] → (∀ t ∈ l, f t < g t) →
      (l.map f).sum < (l.map g).sum
  | [], hne, _ => absurd rfl hne
  | [x], _, h => by simpa using h x (by simp)
  | x :: y :: ys, _, h => by
    have h2 := map_sum_lt_of_forall_lt f g (y :: ys) (by simp)
      (fun t ht => h t (by simp [ht]))
    simp only [List.map_cons, List.sum_cons] at h2 ⊢
    have h1 := h x (by simp)
    linarith

/-- C4: UsageRecord.score equals the sum, over all launch timestamps, of
2^(-age/half_life) with age = now - launch in seconds and half_life = 7 days
in seconds, except that a launch strictly in the future of now contributes
exactly 1.0. -/
theorem score_eq_decay_sum_spec (l : List Int) (now : Int) :
    usageScore l now = usageScoreSpec l now := by
  rw [usageScore_eq_sum, usageScoreSpec]
  congr 1
  apply List.map_congr_left
  intro t _
  by_cases h : now < t
  · rw [decayContribution, if_pos (by omega), if_pos h]
  · rw [decayContribution, if_neg (by omega), if_neg h]

/-- C9 counterexample: a record holding one launch timestamp strictly in the
future (clock skew) scores exactly 1.0 at time 0 and at the strictly later
time 1, so the score is not strictly decreasing over time as claimed. -/
theorem future_launch_score_not_decreasing_cex :
    (0 : Int) < 1 ∧ usageScore [10] 1 = usageScore [10] 0 ∧
      ¬ usageScore [10] 1 < usageScore [10] 0 := by
  have h1 : usageScore [10] 1 = 1 := by
    rw [usageScore_eq_sum]
    simp [decayContribution]
  have h0 : usageScore [10] 0 = 1 := by
    rw [usageScore_eq_sum]
    simp [decayContribution]
  refine ⟨by norm_num, by rw [h1, h0], by rw [h1, h0]; exact lt_irrefl 1⟩

/-- C9 amended: for a record with at least one launch, all launches at or
before the earlier evaluation time, the score at a strictly later time is
strictly smaller; and recording a new launch never lowers the score at the
launch time (given the at-most-100 invariant the code maintains), strictly
raising it whenever no truncation happens (fewer than 100 launches). -/
theorem score_monotonicity_amended (l : List Int) (n₁ n₂ now : Int)
    (hne : l ≠ []) (hpast : ∀ t ∈ l, t ≤ n₁) (hlt : n₁ < n₂)
    (hlen : l.length ≤ 100) :
    usageScore l n₂ < usageScore l n₁ ∧
    usageScore l now ≤ usageScore (record_launch l now) now ∧
    (l.length < 100 → usageScore l now < usageScore (record_launch l now) now) := by
  refine ⟨?_, ?_, ?_⟩
  · rw [usageScore_eq_sum, usageScore_eq_sum]
    exact map_sum_lt_of_forall_lt _ _ l hne
      (fun t ht => decayContribution_strict t n₁ n₂ (hpast t ht) hlt)
  · by_cases hsmall : l.length < 100
    · have hrec : record_launch l now = l ++ [now] := by
        unfold record_launch
        rw [if_neg (by simp; omega)]
      rw [hrec, usageScore_eq_sum, usageScore_eq_sum, List.map_append,
        List.sum_append]
      simp [decayContribution_self]
    · have h100 : l.length = 100 := by omega
      obtain ⟨x, xs, rfl⟩ : ∃ x xs, l = x :: xs := by
        cases l with
        | nil => simp at h100
        | cons a as => exact ⟨a, as, rfl⟩
      have hxs : xs.length = 99 := by simpa using h100
      have hrec : record_launch (x :: xs) now = xs ++ [now] := by
        unfold record_launch
        rw [if_pos (by simp [hxs])]
        simp [hxs]
      rw [hrec, usageScore_eq_sum, usageScore_eq_sum]
      simp only [List.map_cons, List.sum_cons, List.map_append, List.sum_append]
      have := decayContribution_le_one now x
      simp [decayContribution_self]
      linarith
  · intro hsmall
    have hrec : record_launch l now = l ++ [now] := by
      unfold record_launch
      rw [if_neg (by simp; omega)]
    rw [hrec, usageScore_eq_sum, usageScore_eq_sum, List.map_append,
      List.sum_append]
    simp [decayContribution_self]

/-- Witness for the amended C9 statement at the record [0], evaluation times
0 and 5, and a new launch recorded at time 7. -/
theorem score_monotonicity_amended_witness :
    usageScore [0] 5 < usageScore [0] 0 ∧
    usageScore [0] 7 ≤ usageScore (record_launch [0] 7) 7 ∧
    (List.length [(0 : Int)] < 100 →
      usageScore [0] 7 < usageScore (record_launch [0] 7) 7) :=
  score_monotonicity_amended [0] 0 5 7 (by decide) (by decide) (by decide)
    (by decide)

/-! ### Clipboard ledger (app.rs) -/

/-- ClipboardEntry from app.rs, restricted to its persisted fields: the
derived preview field is #[serde(skip)], recomputed from the others, and
never consulted by the ledger logic (it is modelled separately for the
preview claim).  last_used is a "%Y-%m-%d %H:%M:%S" string in the source,
fixed-width and zero-padded, so its lexicographic string order coincides
with chronological order and is modelled as Option Nat (Rust orders None
below Some). -/
structure ClipboardEntry where
  text : String
  count : Nat
  last_used : Option Nat
deriving DecidableEq

/-- Comparison of optional timestamps, Rust Option ordering: None least. -/
def optTimeLe : Option Nat → Option Nat → Bool
  | none, _ => true
  | some _, none => false
  | some a, some b => a ≤ b

/-- Ascending (count, last_used) comparison used by the eviction sort:
a.count.cmp(&b.count).then_with(a.last_used.cmp(&b.last_used)) is not
Greater. -/
def keyLeAsc (a b : ClipboardEntry) : Bool :=
  a.count < b.count || (a.count == b.count && optTimeLe a.last_used b.last_used)

/-- Descending (count, last_used) comparison used for display order:
b.count.cmp(&a.count).then_with(b.last_used.cmp(&a.last_used)) is not
Greater. -/
def keyLeDesc (a b : ClipboardEntry) : Bool := keyLeAsc b a

lemma optTimeLe_total (a b : Option Nat) :
    (optTimeLe a b || optTimeLe b a) = true := by
  cases a <;> cases b <;> simp [optTimeLe] <;> omega

lemma optTimeLe_trans (a b c : Option Nat) (h₁ : optTimeLe a b = true)
    (h₂ : optTimeLe b c = true) : optTimeLe a c = true := by
  cases a <;> cases b <;> cases c <;> simp_all [optTimeLe] <;> omega

lemma keyLeAsc_iff (a b : ClipboardEntry) :
    keyLeAsc a b = true ↔
      (a.count < b.count ∨
        (a.count = b.count ∧ optTimeLe a.last_used b.last_used = true)) := by
  simp [keyLeAsc]

lemma keyLeAsc_total (a b : ClipboardEntry) :
    (keyLeAsc a b || keyLeAsc b a) = true := by
  rw [Bool.or_eq_true, keyLeAsc_iff, keyLeAsc_iff]
  rcases Nat.lt_trichotomy a.count b.count with h | h | h
  · exact Or.inl (Or.inl h)
  · have htot := optTimeLe_total a.last_used b.last_used
    rw [Bool.or_eq_true] at htot
    rcases htot with ho | ho
    · exact Or.inl (Or.inr ⟨h, ho⟩)
    · exact Or.inr (Or.inr ⟨h.symm, ho⟩)
  · exact Or.inr (Or.inl h)

lemma keyLeAsc_trans (a b c : ClipboardEntry) (h₁ : keyLeAsc a b = true)
    (h₂ : keyLeAsc b c = true) : keyLeAsc a c = true := by
  rw [keyLeAsc_iff] at h₁ h₂ ⊢
  rcases h₁ with h₁ | ⟨h₁e, h₁o⟩ <;> rcases h₂ with h₂ | ⟨h₂e, h₂o⟩
  · exact Or.inl (h₁.trans h₂)
  · exact Or.inl (h₂e ▸ h₁)
  · exact Or.inl (h₁e ▸ h₂)
  · exact Or.inr ⟨h₁e.trans h₂e, optTimeLe_trans _ _ _ h₁o h₂o⟩

lemma keyLeDesc_total (a b : ClipboardEntry) :
    (keyLeDesc a b || keyLeDesc b a) = true := by
  rw [keyLeDesc, keyLeDesc, Bool.or_comm]
  exact keyLeAsc_total a b

lemma keyLeDesc_trans (a b c : ClipboardEntry) (h₁ : keyLeDesc a b = true)
    (h₂ : keyLeDesc b c = true) : keyLeDesc a c = true :=
  keyLeAsc_trans c b a h₂ h₁

/-- save_clipboard_history from app.rs, as the list it writes to disk: when
the history is over the limit it stable-sorts a copy ascending by
(count, last_used), drains the first length - max_size entries, and
re-sorts the kept entries descending; otherwise it writes the history
unchanged.  The in-memory history passed in is not modified. -/
def save_clipboard_history (history : List ClipboardEntry) (max_size : Nat) :
    List ClipboardEntry :=
  if history.length > max_size then
    let sorted := history.mergeSort keyLeAsc
    (sorted.drop (sorted.length - max_size)).mergeSort keyLeDesc
  else history

/-- The body of the iter_mut().find branch of update_clipboard: refresh
last_used of the first entry whose text matches. -/
def touchFirst (now : Nat) : List ClipboardEntry → String → List ClipboardEntry
  | [], _ => []
  | e :: rest, text =>
    if e.text == text then { e with last_used := some now } :: rest
    else e :: touchFirst now rest text

/-- The find branch of paste_clipboard: increment count and refresh
last_used of the first entry whose text matches. -/
def pasteTouchFirst (now : Nat) :
    List ClipboardEntry → String → List ClipboardEntry
  | [], _ => []
  | e :: rest, text =>
    if e.text == text then
      { e with count := e.count + 1, last_used := some now } :: rest
    else e :: pasteTouchFirst now rest text

/-- UTF-8 byte length of a string, Rust's str::len. -/
def utf8Len (s : String) : Nat := (s.toList.map Char.utf8Size).sum

/-- Rust char::is_ascii_uppercase. -/
def isAsciiUppercase (c : Char) : Bool := 'A' ≤ c && c ≤ 'Z'

/-- Rust char::is_ascii_lowercase. -/
def isAsciiLowercase (c : Char) : Bool := 'a' ≤ c && c ≤ 'z'

/-- Rust char::is_ascii_digit. -/
def isAsciiDigit (c : Char) : Bool := '0' ≤ c && c ≤ '9'

/-- ClipboardEntry::looks_like_password: byte length between 8 and 32, at
least one ASCII upper, lower and digit, and no space character. -/
def looks_like_password (text : String) : Bool :=
  8 ≤ utf8Len text && utf8Len text ≤ 32 &&
  text.toList.any isAsciiUppercase &&
  text.toList.any isAsciiLowercase &&
  text.toList.any isAsciiDigit &&
  !(text.toList.contains ' ')

/-- The clipboard-relevant state of LauncherApp: the in-memory history and
the text of the previous clipboard sample. -/
structure ClipState where
  history : List ClipboardEntry
  last_clipboard_content : String
deriving DecidableEq

/-- LauncherApp::update_clipboard for one freshly read clipboard text:
returns the updated state and the list written to disk, none when nothing
is saved.  Empty or repeated text is a no-op; password-like text updates
only last_clipboard_content; otherwise the matching entry is touched or a
new entry (count 0) is inserted at the front, the history is saved with
eviction applied to the saved copy only, and the in-memory history is
re-sorted descending. -/
def observe (maxh : Nat) (s : ClipState) (text : String) (now : Nat) :
    ClipState × Option (List ClipboardEntry) :=
  if text == "" || text == s.last_clipboard_content then (s, none)
  else if looks_like_password text then
    ({ s with last_clipboard_content := text }, none)
  else
    let hist₁ :=
      if s.history.any (fun e => e.text == text) then touchFirst now s.history text
      else ⟨text, 0, some now⟩ :: s.history
    ({ history := hist₁.mergeSort keyLeDesc, last_clipboard_content := text },
     some (save_clipboard_history hist₁ maxh))

/-- LauncherApp::paste_clipboard restricted to the ledger: increment the
matching entry and save (always saves, and does not re-sort in memory). -/
def record_paste (maxh : Nat) (s : ClipState) (text : String) (now : Nat) :
    ClipState × Option (List ClipboardEntry) :=
  let hist₁ := pasteTouchFirst now s.history text
  ({ s with history := hist₁ }, some (save_clipboard_history hist₁ maxh))

/-- One ledger-mutating event: a clipboard observation or a paste. -/
inductive ClipOp where
  | observeOp (text : String) (now : Nat)
  | pasteOp (text : String) (now : Nat)
deriving DecidableEq

/-- Dispatch one event to update_clipboard or paste_clipboard. -/
def clipStep (maxh : Nat) (s : ClipState) : ClipOp → ClipState × Option (List ClipboardEntry)
  | .observeOp text now => observe maxh s text now
  | .pasteOp text now => record_paste maxh s text now

/-- Run a sequence of events, collecting every ledger written to disk. -/
def clipRun (maxh : Nat) : ClipState → List ClipOp → ClipState × List (List ClipboardEntry)
  | s, [] => (s, [])
  | s, op :: ops =>
    let r := clipStep maxh s op
    let rest := clipRun maxh r.1 ops
    (rest.1, r.2.toList ++ rest.2)

/-- Touching an entry's last_used never changes any text. -/
lemma touchFirst_texts (now : Nat) (l : List ClipboardEntry) (text : String) :
    (touchFirst now l text).map ClipboardEntry.text =
      l.map ClipboardEntry.text := by
  induction l with
  | nil => rfl
  | cons e rest ih =>
    by_cases h : e.text == text
    · simp [touchFirst, h]
    · simp [touchFirst, h, ih]

/-- Recording a paste never changes any text. -/
lemma pasteTouchFirst_texts (now : Nat) (l : List ClipboardEntry)
    (text : String) :
    (pasteTouchFirst now l text).map ClipboardEntry.text =
      l.map ClipboardEntry.text := by
  induction l with
  | nil => rfl
  | cons e rest ih =>
    by_cases h : e.text == text
    · simp [pasteTouchFirst, h]
    · simp [pasteTouchFirst, h, ih]

/-- Every entry of the saved ledger comes from the history handed to
save_clipboard_history. -/
lemma mem_of_mem_save (l : List ClipboardEntry) (m : Nat)
    (e : ClipboardEntry) (h : e ∈ save_clipboard_history l m) : e ∈ l := by
  unfold save_clipboard_history at h
  split_ifs at h with hgt
  · exact (List.mergeSort_perm l keyLeAsc).mem_iff.mp
      (List.mem_of_mem_drop ((List.mergeSort_perm _ keyLeDesc).mem_iff.mp h))
  · exact h

/-- The saved ledger holds min (length, max_size) entries. -/
lemma save_clipboard_history_length (l : List ClipboardEntry) (m : Nat) :
    (save_clipboard_history l m).length = min l.length m := by
  unfold save_clipboard_history
  split_ifs with hgt
  · simp only [List.length_mergeSort, List.length_drop]
    omega
  · omega

/-- C2 counterexample: with max_clipboard_history = 1, two successive
observations of distinct non-password texts leave the in-memory clipboard
ledger with 2 entries, exceeding the maximum: update_clipboard applies
eviction only to the copy written to disk. -/
theorem inMemory_history_exceeds_max_cex :
    (observe 1 (observe 1 ⟨[], ""⟩ "ab" 0).1 "cd" 1).1.history.length = 2 ∧
      ¬ (observe 1 (observe 1 ⟨[], ""⟩ "ab" 0).1 "cd" 1).1.history.length ≤ 1 := by
  have h₁ : ([⟨"ab", 0, some 0⟩] : List ClipboardEntry).mergeSort keyLeDesc =
      [⟨"ab", 0, some 0⟩] :=
    List.perm_singleton.mp (List.mergeSort_perm _ keyLeDesc)
  have h₂ : (observe 1 ⟨[], ""⟩ "ab" 0).1 = ⟨[⟨"ab", 0, some 0⟩], "ab"⟩ := by
    have h₀ : (observe 1 ⟨[], ""⟩ "ab" 0).1 =
        ⟨([⟨"ab", 0, some 0⟩] : List ClipboardEntry).mergeSort keyLeDesc,
          "ab"⟩ := rfl
    rw [h₀, h₁]
  have h₃ : (observe 1 ⟨[⟨"ab", 0, some 0⟩], "ab"⟩ "cd" 1).1.history =
      ([⟨"cd", 0, some 1⟩, ⟨"ab", 0, some 0⟩] : List ClipboardEntry).mergeSort
        keyLeDesc := rfl
  rw [h₂, h₃, List.length_mergeSort]
  simp

/-- C2 amended: the ledger as persisted by save_clipboard_history (invoked
by every saving observe and record_paste) holds at most
max_clipboard_history entries; when eviction occurs the entries removed are
the lowest in the ascending (count, last_used) order — every dropped entry
compares at most every kept entry — and the saved size equals the maximum.
The in-memory history itself is not truncated. -/
theorem saved_clipboard_bounded_and_eviction_order
    (h : List ClipboardEntry) (maxh : Nat) :
    (save_clipboard_history h maxh).length = min h.length maxh ∧
    (maxh < h.length →
      (save_clipboard_history h maxh).Perm
        ((h.mergeSort keyLeAsc).drop (h.length - maxh)) ∧
      ∀ d ∈ (h.mergeSort keyLeAsc).take (h.length - maxh),
        ∀ k ∈ (h.mergeSort keyLeAsc).drop (h.length - maxh),
          keyLeAsc d k = true) ∧
    (∀ s text now out, (observe maxh s text now).2 = some out →
      out.length ≤ maxh) ∧
    (∀ s text now out, (record_paste maxh s text now).2 = some out →
      out.length ≤ maxh) := by
  refine ⟨save_clipboard_history_length h maxh, ?_, ?_, ?_⟩
  · intro hgt
    constructor
    · unfold save_clipboard_history
      rw [if_pos (by omega)]
      simp only [List.length_mergeSort]
      exact List.mergeSort_perm _ keyLeDesc
    · have hp := List.sorted_mergeSort keyLeAsc_trans keyLeAsc_total h
      rw [← List.take_append_drop (h.length - maxh) (h.mergeSort keyLeAsc)]
        at hp
      exact (List.pairwise_append.mp hp).2.2
  · intro s text now out hout
    unfold observe at hout
    split_ifs at hout
    · have hsave := Option.some.inj hout
      rw [← hsave, save_clipboard_history_length]
      exact min_le_right _ _
    · have hsave := Option.some.inj hout
      rw [← hsave, save_clipboard_history_length]
      exact min_le_right _ _
  · intro s text now out hout
    unfold record_paste at hout
    have hsave := Option.some.inj hout
    rw [← hsave, save_clipboard_history_length]
    exact min_le_right _ _

/-- Single-step preservation: a password-like text is never added to the
history or to a saved ledger by one observe or paste event. -/
lemma clipStep_no_password (maxh : Nat) (s : ClipState) (op : ClipOp)
    (p : String) (hp : looks_like_password p = true)
    (h : ∀ e ∈ s.history, e.text ≠ p) :
    (∀ e ∈ (clipStep maxh s op).1.history, e.text ≠ p) ∧
    (∀ out, (clipStep maxh s op).2 = some out → ∀ e ∈ out, e.text ≠ p) := by
  have texts_ne :
      ∀ (l : List ClipboardEntry),
        (∀ e ∈ l, e.text ≠ p) →
        ∀ (l' : List ClipboardEntry),
          l'.map ClipboardEntry.text = l.map ClipboardEntry.text →
          ∀ e ∈ l', e.text ≠ p := by
    intro l hl l' hmap e he
    have : e.text ∈ l'.map ClipboardEntry.text := List.mem_map_of_mem _ he
    rw [hmap] at this
    obtain ⟨e₀, he₀, heq⟩ := List.mem_map.mp this
    rw [← heq]
    exact hl e₀ he₀
  cases op with
  | pasteOp text now =>
    have hh : ∀ e ∈ pasteTouchFirst now s.history text, e.text ≠ p :=
      texts_ne s.history h _ (pasteTouchFirst_texts now s.history text)
    refine ⟨hh, ?_⟩
    intro out hout e he
    have hsave := Option.some.inj hout
    exact hh e (mem_of_mem_save _ _ _ (hsave ▸ he))
  | observeOp text now =>
    simp only [clipStep, observe]
    split_ifs with h₁ h₂ hany
    · exact ⟨h, by intro out hout; simp at hout⟩
    · exact ⟨h, by intro out hout; simp at hout⟩
    · have hh1 : ∀ e ∈ touchFirst now s.history text, e.text ≠ p :=
        texts_ne s.history h _ (touchFirst_texts now s.history text)
      constructor
      · intro e he
        exact hh1 e ((List.mergeSort_perm _ keyLeDesc).mem_iff.mp he)
      · intro out hout e he
        have hsave := Option.some.inj hout
        exact hh1 e (mem_of_mem_save _ _ _ (hsave ▸ he))
    · have htext : text ≠ p := fun he => h₂ (he ▸ hp)
      have hh1 : ∀ e ∈ (⟨text, 0, some now⟩ :: s.history :
          List ClipboardEntry), e.text ≠ p := by
        intro e he
        rcases List.mem_cons.mp he with rfl | hmem
        · exact htext
        · exact h e hmem
      constructor
      · intro e he
        exact hh1 e ((List.mergeSort_perm _ keyLeDesc).mem_iff.mp he)
      · intro out hout e he
        have hsave := Option.some.inj hout
        exact hh1 e (mem_of_mem_save _ _ _ (hsave ▸ he))

/-- C3: a text matching the password heuristic is observed but never
inserted into the clipboard history and never mutates an existing entry, so
across any sequence of observe and paste events it never appears in the
in-memory history nor in any ledger persisted to disk. -/
theorem password_never_persisted (maxh : Nat) (s : ClipState)
    (ops : List ClipOp) (p : String) (hp : looks_like_password p = true)
    (hinit : ∀ e ∈ s.history, e.text ≠ p) :
    (∀ e ∈ (clipRun maxh s ops).1.history, e.text ≠ p) ∧
    (∀ out ∈ (clipRun maxh s ops).2, ∀ e ∈ out, e.text ≠ p) := by
  induction ops generalizing s with
  | nil => exact ⟨hinit, by intro out hout; simp [clipRun] at hout⟩
  | cons op ops ih =>
    have hstep := clipStep_no_password maxh s op p hp hinit
    have hrest := ih (clipStep maxh s op).1 hstep.1
    constructor
    · simpa [clipRun] using hrest.1
    · intro out hout
      simp only [clipRun, List.mem_append] at hout
      rcases hout with hout | hout
      · cases hop : (clipStep maxh s op).2 with
        | none => rw [hop] at hout; simp at hout
        | some o =>
          rw [hop] at hout
          simp at hout
          subst hout
          exact hstep.2 out hop
      · exact hrest.2 out hout

/-- Witness for C3 at the password "Passw0rd1" run against an empty ledger
through an observation, a paste and an observation of the password itself. -/
theorem password_never_persisted_witness :
    (∀ e ∈ (clipRun 5 ⟨[], ""⟩
        [.observeOp "ab" 0, .pasteOp "ab" 1, .observeOp "Passw0rd1" 2]).1.history,
      e.text ≠ "Passw0rd1") ∧
    (∀ out ∈ (clipRun 5 ⟨[], ""⟩
        [.observeOp "ab" 0, .pasteOp "ab" 1, .observeOp "Passw0rd1" 2]).2,
      ∀ e ∈ out, e.text ≠ "Passw0rd1") :=
  password_never_persisted 5 ⟨[], ""⟩
    [.observeOp "ab" 0, .pasteOp "ab" 1, .observeOp "Passw0rd1" 2]
    "Passw0rd1" (by decide) (by simp)

/-! ### Fuzzy search (app.rs) -/

/-- Lowercasing modelled per character with Char.toLower; Rust's
to_lowercase agrees with it on ASCII input, the domain the fuzzy-search
claims exercise. -/
def toLowerStr (s : String) : List Char := s.toList.map Char.toLower

/-- The word-boundary separator set of fuzzy_score. -/
def isSeparator (c : Char) : Bool :=
  c == ' ' || c == '_' || c == '-' || c == '.' || c == '/' || c == '\\'

/-- Byte index of the first occurrence of needle as a contiguous substring
of hay, as str::find reports it (None when absent). -/
def findSubstringPos (needle : List Char) : List Char → Option Nat
  | [] => if needle.isPrefixOf ([] : List Char) then some 0 else none
  | c :: rest =>
    if needle.isPrefixOf (c :: rest) then some 0
    else (findSubstringPos needle rest).map (· + c.utf8Size)

/-- Accumulator of the fuzzy-matching loop of fuzzy_score: running score,
next query index, consecutive-run counter and previous match index. -/
structure FuzzyAcc where
  score : Int
  qIdx : Nat
  consecutive : Int
  prevMatchIdx : Int
deriving DecidableEq

/-- The character scan of fuzzy_score: walk the lowercased text; each
matched query character adds 1, an adjacent match adds 10 times the grown
consecutive counter, and a match at index 0 or right after a separator in
the original text adds 5. -/
def fuzzyLoop (qchars tchars : List Char) :
    Nat → List Char → FuzzyAcc → FuzzyAcc
  | _, [], acc => acc
  | tIdx, c :: rest, acc =>
    let acc' :=
      if acc.qIdx < qchars.length && (c == qchars.getD acc.qIdx ' ') then
        let base := acc.score + 1
        let step :=
          if (tIdx : Int) == acc.prevMatchIdx + 1 then
            (acc.consecutive + 1, base + (acc.consecutive + 1) * 10)
          else ((0 : Int), base)
        let score₂ :=
          if tIdx == 0 || isSeparator (tchars.getD (tIdx - 1) 'a') then
            step.2 + 5
          else step.2
        { score := score₂, qIdx := acc.qIdx + 1, consecutive := step.1,
          prevMatchIdx := (tIdx : Int) }
      else acc
    fuzzyLoop qchars tchars (tIdx + 1) rest acc'

/-- fuzzy_score from app.rs: an exact case-insensitive substring match
scores 1000 + (100 - byte position clamped to 100); otherwise the greedy
subsequence scan scores, with 0 when not every query character matched. -/
def fuzzy_score (query text : String) : Int :=
  let query_lower := toLowerStr query
  let text_lower := toLowerStr text
  match findSubstringPos query_lower text_lower with
  | some pos => 1000 + (100 - ((min pos 100 : Nat) : Int))
  | none =>
    let acc := fuzzyLoop query_lower text.toList 0 text_lower ⟨0, 0, 0, -2⟩
    if acc.qIdx < query_lower.length then 0 else acc.score

/-- The scored list built by fuzzy_search_clipboard: every entry with a
positive fuzzy score, paired with its score, in ledger order. -/
def fuzzyScored (query : String) (history : List ClipboardEntry) :
    List (Int × ClipboardEntry) :=
  history.filterMap (fun e =>
    let s := fuzzy_score query e.text
    if s > 0 then some (s, e) else none)

/-- The descending comparator b.0.cmp(&a.0) of fuzzy_search_clipboard is
not Greater. -/
def scoreDescLe (a b : Int × ClipboardEntry) : Bool := b.1 ≤ a.1

/-- fuzzy_search_clipboard from app.rs: empty query returns the first limit
entries; otherwise score, drop zero scores, stable-sort descending by
score, truncate to limit. -/
def fuzzy_search_clipboard (query : String) (history : List ClipboardEntry)
    (limit : Nat) : List ClipboardEntry :=
  if query == "" then history.take limit
  else
    (((fuzzyScored query history).mergeSort scoreDescLe).take limit).map
      (fun p => p.2)

lemma scoreDescLe_trans (a b c : Int × ClipboardEntry)
    (h₁ : scoreDescLe a b = true) (h₂ : scoreDescLe b c = true) :
    scoreDescLe a c = true := by
  simp only [scoreDescLe, decide_eq_true_eq] at h₁ h₂ ⊢
  omega

lemma scoreDescLe_total (a b : Int × ClipboardEntry) :
    (scoreDescLe a b || scoreDescLe b a) = true := by
  simp only [scoreDescLe, Bool.or_eq_true, decide_eq_true_eq]
  omega

/-- Every scored pair records the fuzzy score of its own entry, positive,
for an entry of the history. -/
lemma mem_fuzzyScored (query : String) (history : List ClipboardEntry)
    (p : Int × ClipboardEntry) (hp : p ∈ fuzzyScored query history) :
    p.1 = fuzzy_score query p.2.text ∧ 0 < p.1 ∧ p.2 ∈ history := by
  unfold fuzzyScored at hp
  obtain ⟨e, he, heq⟩ := List.mem_filterMap.mp hp
  by_cases hs : fuzzy_score query e.text > 0
  · simp only [hs, if_pos, Option.some.injEq] at heq
    rw [← heq]
    exact ⟨rfl, hs, he⟩
  · simp [hs] at heq

/-- Filtering for a fixed predicate that forces a relation yields a
pairwise-related list. -/
lemma pairwise_filter_const {α : Type} (q : α → Bool) (R : α → α → Prop)
    (h : ∀ a b, q a = true → q b = true → R a b) :
    ∀ l : List α, (l.filter q).Pairwise R
  | [] => List.Pairwise.nil
  | a :: l => by
    by_cases ha : q a
    · rw [List.filter_cons_of_pos ha]
      refine List.Pairwise.cons ?_ (pairwise_filter_const q R h l)
      intro b hb
      exact h a b ha (List.of_mem_filter hb)
    · rw [List.filter_cons_of_neg (by simpa using ha)]
      exact pairwise_filter_const q R h l

/-- Members of the search result score positive and come from the history. -/
lemma mem_fuzzy_search (query : String) (history : List ClipboardEntry)
    (limit : Nat) (e : ClipboardEntry) (hq : query ≠ "")
    (he : e ∈ fuzzy_search_clipboard query history limit) :
    0 < fuzzy_score query e.text ∧ e ∈ history := by
  unfold fuzzy_search_clipboard at he
  rw [if_neg (by simpa using hq)] at he
  obtain ⟨p, hp, rfl⟩ := List.mem_map.mp he
  have hmem : p ∈ fuzzyScored query history :=
    (List.mergeSort_perm _ scoreDescLe).mem_iff.mp (List.mem_of_mem_take hp)
  obtain ⟨hscore, hpos, hhist⟩ := mem_fuzzyScored query history p hmem
  exact ⟨hscore ▸ hpos, hhist⟩

/-- C7: fuzzy search returns the first limit entries for an empty query;
otherwise every result entry has a positive fuzzy score, zero-scored
entries are excluded, results are sorted by descending score with
equal-score runs kept in original ledger order, and at most limit entries
are returned; an exact case-insensitive substring match at byte position
pos scores 1000 + (100 - min pos 100); and on the spec's examples the
query "ff" scores 7 against "Firefox" (nonzero), "zx" scores 0, and
"abc" against "ab_c" scores 23 = 3 matched characters + one consecutive
bonus of 10 + two word-start bonuses of 5. -/
theorem fuzzy_search_spec (query : String) (history : List ClipboardEntry)
    (limit : Nat) (s : Int) :
    (query = "" →
      fuzzy_search_clipboard query history limit = history.take limit) ∧
    (fuzzy_search_clipboard query history limit).length ≤ limit ∧
    (query ≠ "" → ∀ e ∈ fuzzy_search_clipboard query history limit,
      0 < fuzzy_score query e.text ∧ e ∈ history) ∧
    (query ≠ "" → ∀ e, fuzzy_score query e.text = 0 →
      e ∉ fuzzy_search_clipboard query history limit) ∧
    (query ≠ "" → List.Pairwise
      (fun a b => fuzzy_score query b.text ≤ fuzzy_score query a.text)
      (fuzzy_search_clipboard query history limit)) ∧
    ((fuzzyScored query history).mergeSort scoreDescLe).filter
        (fun p => p.1 == s) =
      (fuzzyScored query history).filter (fun p => p.1 == s) ∧
    (∀ text pos,
      findSubstringPos (toLowerStr query) (toLowerStr text) = some pos →
      fuzzy_score query text = 1000 + (100 - ((min pos 100 : Nat) : Int))) ∧
    fuzzy_score "ff" "Firefox" = 7 ∧
    fuzzy_score "zx" "Firefox" = 0 ∧
    fuzzy_score "abc" "ab_c" = 23 := by
  refine ⟨?_, ?_, ?_, ?_, ?_, ?_, ?_, by decide, by decide, by decide⟩
  · intro hq
    subst hq
    simp [fuzzy_search_clipboard]
  · unfold fuzzy_search_clipboard
    split_ifs
    · exact List.length_take_le _ _
    · rw [List.length_map]
      exact List.length_take_le _ _
  · intro hq e he
    exact mem_fuzzy_search query history limit e hq he
  · intro hq e hzero he
    have := (mem_fuzzy_search query history limit e hq he).1
    omega
  · intro hq
    unfold fuzzy_search_clipboard
    rw [if_neg (by simpa using hq)]
    rw [List.pairwise_map]
    apply List.Pairwise.sublist (List.take_sublist _ _)
    have hsorted :=
      List.sorted_mergeSort scoreDescLe_trans scoreDescLe_total
        (fuzzyScored query history)
    apply List.Pairwise.imp_of_mem ?_ hsorted
    intro a b ha hb hle
    have ha' := mem_fuzzyScored query history a
      ((List.mergeSort_perm _ scoreDescLe).mem_iff.mp ha)
    have hb' := mem_fuzzyScored query history b
      ((List.mergeSort_perm _ scoreDescLe).mem_iff.mp hb)
    simp only [scoreDescLe, decide_eq_true_eq] at hle
    rw [← ha'.1, ← hb'.1]
    exact hle
  · have hc : ((fuzzyScored query history).filter (fun p => p.1 == s)).Pairwise
        (fun a b => scoreDescLe a b = true) := by
      apply pairwise_filter_const
      intro a b ha hb
      simp only [beq_iff_eq] at ha hb
      simp only [scoreDescLe, decide_eq_true_eq, ha, hb]
      exact le_refl s
    have hsub : ((fuzzyScored query history).filter
        (fun p => p.1 == s)).Sublist
          ((fuzzyScored query history).mergeSort scoreDescLe) :=
      List.sublist_mergeSort scoreDescLe_trans scoreDescLe_total hc
        (List.filter_sublist _)
    have hsub₂ : ((fuzzyScored query history).filter
        (fun p => p.1 == s)).Sublist
          (((fuzzyScored query history).mergeSort scoreDescLe).filter
            (fun p => p.1 == s)) := by
      have heq : ((fuzzyScored query history).filter
          (fun p => p.1 == s)).filter (fun p => p.1 == s) =
            (fuzzyScored query history).filter (fun p => p.1 == s) :=
        List.filter_eq_self.mpr (fun a ha => (List.mem_filter.mp ha).2)
      rw [← heq]
      exact List.Sublist.filter _ hsub
    have hperm : (((fuzzyScored query history).mergeSort
        scoreDescLe).filter (fun p => p.1 == s)).Perm
          ((fuzzyScored query history).filter (fun p => p.1 == s)) :=
      (List.mergeSort_perm _ scoreDescLe).filter _
    exact (List.Sublist.eq_of_length hsub₂ hperm.length_eq.symm).symm
  · intro text pos hpos
    simp [fuzzy_score, hpos]

/-! ### Persisted ledger format (usage.rs, app.rs)

JSON is modelled as a value tree; chrono DateTime timestamps, serialized by
serde as fixed-format strings, are modelled by their integer second value,
an order- and value-isomorphic encoding. -/

/-- JSON values of the persisted files. -/
inductive Json where
  | null
  | num (n : Int)
  | str (s : String)
  | arr (elems : List Json)
  | obj (fields : List (String × Json))

/-- UsageRecord from usage.rs, launch timestamps in whole seconds. -/
structure UsageRecord where
  path : String
  name : String
  launches : List Int
deriving DecidableEq

/-- UsageData from usage.rs; the two HashMaps are modelled as association
lists keyed by path. -/
structure UsageData where
  programs : List (String × UsageRecord)
  documents : List (String × UsageRecord)
  last_cleanup : Option Int
deriving DecidableEq

/-- The derived Default of UsageData: empty maps, no cleanup stamp. -/
def UsageData.default : UsageData := ⟨[], [], none⟩

/-- Serde serialization of one usage record. -/
def usageRecord_toJson (r : UsageRecord) : Json :=
  .obj [("path", .str r.path), ("name", .str r.name),
        ("launches", .arr (r.launches.map Json.num))]

/-- Serde serialization of a record map. -/
def recordMap_toJson (m : List (String × UsageRecord)) : Json :=
  .obj (m.map (fun kv => (kv.1, usageRecord_toJson kv.2)))

/-- UsageData::save, as the JSON value serde_json writes to usage.json. -/
def usageData_toJson (d : UsageData) : Json :=
  .obj [("programs", recordMap_toJson d.programs),
        ("documents", recordMap_toJson d.documents),
        ("last_cleanup",
          match d.last_cleanup with
          | none => Json.null
          | some t => Json.num t)]

/-- Field lookup in a serde object (first occurrence of the key). -/
def jsonLookup (fields : List (String × Json)) (k : String) : Option Json :=
  (fields.find? (fun kv => kv.1 == k)).map (fun kv => kv.2)

/-- Deserialize the launch timestamp array. -/
def decodeLaunches : List Json → Option (List Int)
  | [] => some []
  | .num n :: rest => (decodeLaunches rest).map (fun l => n :: l)
  | _ => none

/-- Deserialize one usage record; all three fields are required. -/
def usageRecord_fromJson : Json → Option UsageRecord
  | .obj fields =>
    match jsonLookup fields "path", jsonLookup fields "name",
        jsonLookup fields "launches" with
    | some (.str p), some (.str n), some (.arr ls) =>
      (decodeLaunches ls).map (fun launches => ⟨p, n, launches⟩)
    | _, _, _ => none
  | _ => none

/-- Deserialize the entries of a record map. -/
def decodeRecordMap :
    List (String × Json) → Option (List (String × UsageRecord))
  | [] => some []
  | (k, v) :: rest =>
    match usageRecord_fromJson v, decodeRecordMap rest with
    | some r, some m => some ((k, r) :: m)
    | _, _ => none

/-- Deserialize UsageData, serde_json::from_str on the file body. -/
def usageData_fromJson : Json → Option UsageData
  | .obj fields =>
    match jsonLookup fields "programs", jsonLookup fields "documents",
        jsonLookup fields "last_cleanup" with
    | some (.obj ps), some (.obj ds), some lc =>
      match decodeRecordMap ps, decodeRecordMap ds with
      | some programs, some documents =>
        match lc with
        | .null => some ⟨programs, documents, none⟩
        | .num t => some ⟨programs, documents, some t⟩
        | _ => none
      | _, _ => none
    | _, _, _ => none
  | _ => none

/-- UsageData::load: a missing file yields the derived default; a file that
parses yields the parsed data; a corrupt (or unreadable) file makes load
return the error serde or the read produced, wrapped with context — the
source does not fall back to the default in that case.  Loading never
writes the file. -/
def usageData_load (file : Option Json) : Except Unit UsageData :=
  match file with
  | none => .ok UsageData.default
  | some j =>
    match usageData_fromJson j with
    | some d => .ok d
    | none => .error ()

/-- Deserialize the count field, #[serde(default)] for a u32. -/
def decodeCount : Option Json → Option Nat
  | none => some 0
  | some (.num c) => if 0 ≤ c then some c.toNat else none
  | some _ => none

/-- Deserialize the last_used field, #[serde(default)] for an optional
timestamp. -/
def decodeLastUsed : Option Json → Option (Option Nat)
  | none => some none
  | some .null => some none
  | some (.num u) => if 0 ≤ u then some (some u.toNat) else none
  | some _ => none

/-- Deserialize one clipboard entry: text required, count and last_used
defaulted; the skipped preview field is never read. -/
def clipboardEntry_fromJson : Json → Option ClipboardEntry
  | .obj fields =>
    match jsonLookup fields "text" with
    | some (.str t) =>
      match decodeCount (jsonLookup fields "count"),
          decodeLastUsed (jsonLookup fields "last_used") with
      | some c, some u => some ⟨t, c, u⟩
      | _, _ => none
    | _ => none
  | _ => none

/-- Deserialize the clipboard entry array elementwise. -/
def decodeClipEntries : List Json → Option (List ClipboardEntry)
  | [] => some []
  | j :: rest =>
    match clipboardEntry_fromJson j, decodeClipEntries rest with
    | some e, some l => some (e :: l)
    | _, _ => none

/-- Deserialize the clipboard ledger file, a JSON array of entries. -/
def clipList_fromJson : Json → Option (List ClipboardEntry)
  | .arr elems => decodeClipEntries elems
  | _ => none

/-- load_clipboard_history from app.rs: a missing file (and likewise a read
error in the source) gives the empty history; otherwise parse with
unwrap_or_default — any parse error falls back to the empty list — and sort
descending by (count, last_used). -/
def load_clipboard_history (file : Option Json) : List ClipboardEntry :=
  match file with
  | none => []
  | some j => ((clipList_fromJson j).getD []).mergeSort keyLeDesc

/-- Launch arrays round-trip through serialization. -/
lemma decodeLaunches_map (l : List Int) :
    decodeLaunches (l.map Json.num) = some l := by
  induction l with
  | nil => rfl
  | cons x xs ih => simp [decodeLaunches, ih]

/-- Usage records round-trip through serialization. -/
lemma usageRecord_roundtrip (r : UsageRecord) :
    usageRecord_fromJson (usageRecord_toJson r) = some r := by
  obtain ⟨p, n, ls⟩ := r
  simp [usageRecord_toJson, usageRecord_fromJson, jsonLookup,
    decodeLaunches_map]

/-- Record maps round-trip through serialization. -/
lemma decodeRecordMap_map (m : List (String × UsageRecord)) :
    decodeRecordMap (m.map (fun kv => (kv.1, usageRecord_toJson kv.2))) =
      some m := by
  induction m with
  | nil => rfl
  | cons kv rest ih => simp [decodeRecordMap, usageRecord_roundtrip, ih]

/-- C8: the persisted usage-ledger format round-trips: loading a saved
ledger returns the same programs map, documents map and last_cleanup, and
hence save(load(save X)) equals save X. -/
theorem usage_ledger_roundtrip (d : UsageData) :
    usageData_fromJson (usageData_toJson d) = some d ∧
    (usageData_fromJson (usageData_toJson d)).map usageData_toJson =
      some (usageData_toJson d) := by
  have h : usageData_fromJson (usageData_toJson d) = some d := by
    obtain ⟨ps, ds, lc⟩ := d
    cases lc <;>
      simp [usageData_toJson, usageData_fromJson, recordMap_toJson,
        jsonLookup, decodeRecordMap_map]
  exact ⟨h, by rw [h]; rfl⟩

/-- C6 counterexample: on a corrupt persisted value (a bare number where an
object is expected) the usage ledger does not fall back to the empty state:
UsageData::load returns an error, which main propagates with the question
mark operator, terminating startup; only the clipboard ledger falls back to
empty. -/
theorem corrupt_usage_load_errors_cex :
    usageData_load (some (Json.num 5)) = .error () ∧
    load_clipboard_history (some (Json.num 5)) = [] ∧
    ¬ usageData_load (some (Json.num 5)) = .ok UsageData.default := by
  refine ⟨rfl, ?_, ?_⟩
  · simp [load_clipboard_history, clipList_fromJson]
  · intro h
    have h' : (Except.error () : Except Unit UsageData) =
        .ok UsageData.default := h
    exact Except.noConfusion h'

/-- C6 amended: a missing usage file falls back to the default and a
corrupt clipboard file falls back to the empty history, but a corrupt
usage file is a propagated load error, not a fallback; loading never
modifies the persisted file (the model's loads are pure readers). -/
theorem load_fallback_semantics :
    usageData_load none = .ok UsageData.default ∧
    (∀ j, usageData_fromJson j = none →
      usageData_load (some j) = .error ()) ∧
    (∀ j d, usageData_fromJson j = some d →
      usageData_load (some j) = .ok d) ∧
    load_clipboard_history none = [] ∧
    (∀ j, clipList_fromJson j = none →
      load_clipboard_history (some j) = []) ∧
    (∀ j l, clipList_fromJson j = some l →
      load_clipboard_history (some j) = l.mergeSort keyLeDesc) := by
  refine ⟨rfl, ?_, ?_, rfl, ?_, ?_⟩
  · intro j hj
    simp [usageData_load, hj]
  · intro j d hj
    simp [usageData_load, hj]
  · intro j hj
    simp [load_clipboard_history, hj]
  · intro j l hj
    simp [load_clipboard_history, hj]

/-! ### Clipboard preview (app.rs) -/

/-- The characters spanned by the byte slice text[..n]: none models the
Rust panic raised when n is not a character boundary or past the end. -/
def byteTake : List Char → Nat → Option (List Char)
  | _, 0 => some []
  | [], _ + 1 => none
  | c :: rest, n + 1 =>
    if c.utf8Size ≤ n + 1 then
      (byteTake rest (n + 1 - c.utf8Size)).map (fun l => c :: l)
    else none

/-- eval_math from app.rs: normalise the expression (x and × to *, ÷ to /,
comma to dot, spaces removed, trimmed) and guard it (has a digit, has an
operator, only safe characters), then hand it to the external meval
evaluator, abstracted as the mevalResult argument giving the formatted f64
result or None when meval fails. -/
def eval_math (mevalResult : String → Option String) (text : String) :
    Option String :=
  let expr := ((text.trim.toList.map (fun c =>
      if c = 'x' then '*' else if c = '×' then '*'
      else if c = '÷' then '/' else if c = ',' then '.' else c)).filter
      (fun c => c != ' '))
  if expr.any isAsciiDigit &&
      expr.any (fun c => "+-*/".toList.contains c) &&
      expr.all (fun c => "0123456789.+-*/()".toList.contains c) then
    mevalResult (String.mk expr)
  else none

/-- ClipboardEntry::update_preview as the preview it computes: text over 40
bytes is truncated by the byte slice text[..37] (none models the panic when
byte 37 splits a character) with "..." appended, newlines become spaces,
then the positive count and the evaluated math result are appended. -/
def update_preview (mevalResult : String → Option String) (text : String)
    (count : Nat) : Option String :=
  match (if utf8Len text > 40 then
      (byteTake text.toList 37).map (fun l => l ++ "...".toList)
    else some text.toList) with
  | none => none
  | some t₀ =>
    let truncated := t₀.map (fun c => if c = '\n' then ' ' else c)
    let withCount :=
      if count > 0 then truncated ++ (" (" ++ toString count ++ ")").toList
      else truncated
    let withMath :=
      match eval_math mevalResult text with
      | some res => withCount ++ (" = " ++ res).toList
      | none => withCount
    some (String.mk withMath)

/-- ClipboardEntry::new recomputes the preview of a fresh entry with
count 0. -/
def clipboardEntry_new_preview (mevalResult : String → Option String)
    (text : String) : Option String :=
  update_preview mevalResult text 0

/-- C10: preview recomputation is not total.  Fourteen euro signs are
fourteen three-byte characters, 42 bytes, so update_preview slices
text[..37]; byte 37 falls inside the thirteenth character, which in the
source is a byte-index-not-a-char-boundary panic, modelled as none, for
every behaviour of the external math evaluator; ClipboardEntry::new
recomputes the same preview and panics identically. -/
theorem update_preview_panics_on_multibyte
    (mevalResult : String → Option String) :
    update_preview mevalResult "€€€€€€€€€€€€€€" 0 = none ∧
    clipboardEntry_new_preview mevalResult "€€€€€€€€€€€€€€" = none := by
  have hb : byteTake "€€€€€€€€€€€€€€".toList 37 = none := by decide
  have hlen : utf8Len "€€€€€€€€€€€€€€" > 40 := by decide
  constructor
  · unfold update_preview
    rw [if_pos hlen, hb]
    rfl
  · unfold clipboardEntry_new_preview update_preview
    rw [if_pos hlen, hb]
    rfl

end Launcher
